import Mathlib

/-!
Verification of the `Phonons` component of the CellConstructor repository
(src/cellconstructor/Phonons.py), via a shallow embedding of the relevant
operations.  Machine floating-point numbers are modelled as exact rationals
(where the claims are about formatting/round-trip arithmetic) or as real
numbers (where the claims are about the numerical mathematics); the external
eigensolver `np.linalg.eig` is modelled as an oracle: the functions below take
its output (eigenvalues and eigenvector columns) as explicit arguments, and
theorems that need the oracle to be honest state that as a hypothesis.
-/

/-- Error kinds of the specification's section 7 taxonomy, plus the raw Python
exception kinds that the code can actually produce.  Every `raise ValueError`
site of Phonons.py is mapped to the spec kind that classifies its condition:
bad argument values to `invalidArgument`, a missing expected file to
`fileNotFound`, absent optional data to `invalidState`.  `typeError` and
`attributeError` model the Python `TypeError` / `AttributeError` exceptions
raised implicitly by the runtime. -/
inductive SpecErr where
  | invalidArgument : SpecErr
  | fileNotFound : SpecErr
  | invalidState : SpecErr
  | typeError : SpecErr
  | attributeError : SpecErr
deriving DecidableEq

/-! ### Constructor from a structure (Phonons.__init__, lines 81-95)

The Structure branch of `Phonons.__init__` checks `structure.N_atoms <= 0`
(line 85) and `nqirr <= 0` (line 89), both raising `ValueError`, and then
executes `for i in nqirr:` (line 93).  Since `nqirr` is an `int`, Python's
iteration protocol raises `TypeError: 'int' object is not iterable` there,
so the construction can never reach the matrix-allocation body. -/
def phononsInitFromStructure (nAtoms nqirr : ℤ) : Except SpecErr Unit :=
  if nAtoms ≤ 0 then .error .invalidArgument
  else if nqirr ≤ 0 then .error .invalidArgument
  else .error .typeError

/-! ### Loader argument/file checks (Phonons.LoadFromQE, lines 117-136)

`LoadFromQE` first validates `nqirr` and the `full_name`/`nqirr` combination
(both `ValueError`, spec kind InvalidArgument), then iterates `iq` over
`range(nqirr)`, checking `os.path.isfile` for each expected file and raising
(spec kind FileNotFound) at the first missing one.  The oracle `ex iq` tells
whether the file checked at iteration `iq` exists (the exact file name is
the given name when `full_name` is set, else the prefixed name with index
`iq + 1`).  Parsing of an existing file is modelled as succeeding, following
the specification (section 7: parsing raises no errors). -/
def loadLoop (ex : ℕ → Bool) : List ℕ → Except SpecErr Unit
  | [] => .ok ()
  | iq :: rest => if ex iq then loadLoop ex rest else .error .fileNotFound

def loadFromQEChecks (nqirr : ℤ) (fullName : Bool) (ex : ℕ → Bool) :
    Except SpecErr Unit :=
  if nqirr ≤ 0 then .error .invalidArgument
  else if fullName ∧ 1 < nqirr then .error .invalidArgument
  else loadLoop ex (List.range nqirr.toNat)

/-! ### Round-trip scale factors (save_qe lines 754-809, LoadFromQE lines 163-204)

`save_qe` writes the header length scale as `self.alat * A_TO_BOHR` with
`A_TO_BOHR = 1.889725989` (formatted `%.8f`, 8 decimals), and every
coordinate and cell row divided by `self.alat` (`%15.10f` / `%12.8f`).
`LoadFromQE` recovers `self.alat = celldm1 * BOHR_TO_ANGSTROM` with the
module constant `BOHR_TO_ANGSTROM = 0.52918` (line 16, a truncation of the
value `0.529177249` that the same file uses elsewhere as `BOHR_TO_ANG`,
line 991), and multiplies every coordinate and cell row it reads by that
`alat`.  Fixed-point decimal formatting is modelled by `roundDec` (round to
`d` decimal places). -/
def roundDec (d : ℕ) (x : ℚ) : ℚ := (Int.floor (x * 10 ^ d + 1 / 2) : ℚ) / 10 ^ d

def bohrToAngstromConst : ℚ := 52918 / 100000

def aToBohrConst : ℚ := 1889725989 / 1000000000

/-- The `celldm(1)` header field written by `save_qe` (line 791). -/
def savedCelldm1 (alat : ℚ) : ℚ := roundDec 8 (alat * aToBohrConst)

/-- A coordinate as written by `save_qe` (lines 806-809): divided by `alat`,
formatted with 10 decimals. -/
def savedCoord (alat x : ℚ) : ℚ := roundDec 10 (x / alat)

/-- The `alat` recovered by `LoadFromQE` from a file written by `save_qe`
(line 163). -/
def reloadedAlat (alat : ℚ) : ℚ := savedCelldm1 alat * bohrToAngstromConst

/-- A coordinate recovered by `LoadFromQE` from a file written by `save_qe`
(line 204): the stored alat-relative value times the recovered `alat`. -/
def reloadedCoord (alat x : ℚ) : ℚ := savedCoord alat x * reloadedAlat alat

/-! ### Guard clauses of GetUpsilonMatrix (lines 465-469) and GetStrainMatrix
(lines 643-644).  Both raise `ValueError` (spec kind InvalidArgument per
section 4.3/4.4). -/
def getUpsilonMatrixChecks (T : ℚ) (nqirr : ℤ) : Except SpecErr Unit :=
  if T < 0 then .error .invalidArgument
  else if nqirr ≠ 1 then .error .invalidArgument
  else .ok ()

def getStrainMatrixChecks (T : ℚ) : Except SpecErr Unit :=
  if T < 0 then .error .invalidArgument
  else .ok ()

/-! ### CheckCompatibility (lines 409-437)

The method reads `type(other)`, `self.structure.N_atoms`,
`other.structure.N_atoms`, `self.nqirr` and `other.nqirr` and nothing else;
it is modelled by the projection of a `Phonons` object onto those fields.
`structNAtoms = none` models `self.structure = None` (the state produced by
the default constructor `Phonons()`, e.g. inside `Copy`, line 397), in which
case the attribute access `self.structure.N_atoms` raises `AttributeError`. -/
structure PhononsMeta where
  structNAtoms : Option ℤ
  nqirr : ℤ
deriving DecidableEq

/-- The argument of `CheckCompatibility`: either a `Phonons` instance or any
value of a different type (line 425 compares `type(other) != type(self)`). -/
inductive PyValue where
  | phonons (p : PhononsMeta)
  | nonPhonons
deriving DecidableEq

def checkCompatibility (self : PhononsMeta) (other : PyValue) :
    Except SpecErr Bool :=
  match other with
  | .nonPhonons => .ok false
  | .phonons p =>
    match self.structNAtoms with
    | none => .error .attributeError
    | some nA =>
      match p.structNAtoms with
      | none => .error .attributeError
      | some nB =>
        if nA ≠ nB then .ok false
        else if self.nqirr ≠ p.nqirr then .ok false
        else .ok true

/-! ### Diagonalization (Phonons.DyagDinQ, lines 337-388)

The code builds the mass-weighted matrix `real_dyn[a,b] = dyn[a,b] /
sqrt(m_a * m_b)` (lines 363-372), feeds it to `np.linalg.eig`, converts the
real parts of the eigenvalues to frequencies (lines 376-381) and sorts
frequencies and eigenvector columns by one `argsort` mask (lines 384-386).
`np.linalg.eig` is an oracle: `dyagDinQ` takes its output — the eigenvalue
array `eigvals` and the eigenvector matrix `polVects` (column `j` of
`polVects` is the eigenvector paired with `eigvals j`) — as arguments. -/
noncomputable def massWeighted (n : ℕ) (massOf : Fin n → ℝ)
    (dyn : Fin n → Fin n → ℂ) : Fin n → Fin n → ℂ :=
  fun a b => (((1 : ℝ) / Real.sqrt (massOf a * massOf b) : ℝ) : ℂ) * dyn a b

/-- Lines 379-381: `frequencies[f2 > 0] = sqrt(...)`,
`frequencies[f2 < 0] = -sqrt(...)`, zero entries keep the initial `0`. -/
noncomputable def freqOf (x : ℝ) : ℝ :=
  if 0 < x then Real.sqrt x else if x < 0 then -Real.sqrt (-x) else 0

/-- Lines 374-388: frequencies from the real parts of the eigenvalues,
then frequencies and eigenvector columns reordered by the same sorting
permutation (`sorting_mask = np.argsort(frequencies)`). -/
noncomputable def dyagDinQ (n : ℕ) (eigvals : Fin n → ℂ)
    (polVects : Fin n → Fin n → ℂ) : (Fin n → ℝ) × (Fin n → Fin n → ℂ) :=
  let rawFreqs : Fin n → ℝ := fun j => freqOf (eigvals j).re
  let mask := Tuple.sort rawFreqs
  (fun j => rawFreqs (mask j), fun a j => polVects a (mask j))

/-! ### GetUpsilonMatrix at T = 0 (lines 439-500)

At `T = 0` the occupation `nw` is `0`, so `factor = 2*w/(1 + 2*nw) = 2*w`.
The code takes the real part of the polarization vectors (line 475),
discards the first three modes (lines 478-479), contracts
`Upsilon[a,b] = sum_mu factor[mu] * pols[a,mu] * pols[b,mu]` (line 490) and
multiplies entrywise by `sqrt(m_a)*sqrt(m_b)` (lines 493-500, `mass1` holds
the square roots of the per-coordinate atomic masses). -/
noncomputable def getUpsilonMatrixT0 (n : ℕ) (eigvals : Fin n → ℂ)
    (polVects : Fin n → Fin n → ℂ) (massOf : Fin n → ℝ) :
    Fin n → Fin n → ℝ :=
  fun a b =>
    (∑ μ ∈ Finset.univ.filter (fun μ : Fin n => 3 ≤ (μ : ℕ)),
        (2 * (dyagDinQ n eigvals polVects).1 μ) *
          ((dyagDinQ n eigvals polVects).2 a μ).re *
          ((dyagDinQ n eigvals polVects).2 b μ).re) *
      (Real.sqrt (massOf a) * Real.sqrt (massOf b))

/-! ### GetProbability (lines 503-565)

`braket = einsum("i, ij, j", disp, upsilon, disp)`; the normalization takes
the eigenvalues of the passed Upsilon matrix (`np.linalg.eigvals`, an oracle
modelled by the argument `vals`), orders them by increasing absolute value,
divides by `2*pi`, drops the three smallest and multiplies the rest; the
result is `sqrt(det) * exp(-braket)` when `normalize` else `exp(-braket)`. -/
noncomputable def quadFormU (n : ℕ) (ups : Fin n → Fin n → ℝ)
    (u : Fin n → ℝ) : ℝ :=
  ∑ a, ∑ b, u a * ups a b * u b

noncomputable def sortedAbsVals (vals : List ℝ) : List ℝ :=
  List.insertionSort (fun x y => |x| ≤ |y|) vals

noncomputable def probNormConst (vals : List ℝ) : ℝ :=
  Real.sqrt ((((sortedAbsVals vals).map (fun v => v / (2 * Real.pi))).drop 3).prod)

noncomputable def getProbability (n : ℕ) (ups : Fin n → Fin n → ℝ)
    (vals : List ℝ) (u : Fin n → ℝ) (normalize : Bool) : ℝ :=
  if normalize then probNormConst vals * Real.exp (-(quadFormU n ups u))
  else Real.exp (-(quadFormU n ups u))

/-! ### ForcePositiveDefinite, one pass on one stored matrix (lines 872-903)

For each stored matrix the code takes `(w, pols) = DyagDinQ(iq)` and
replaces the matrix by `einsum("i, ji, ki", w**2, pols, pols) *
sqrt(m_a * m_b)` (line 902; `_m1_ * _m2_` is the outer product of the raw
per-coordinate masses, square-rooted afterwards).  The complex eigenvector
columns are used as they are — no conjugation and no real part. -/
noncomputable def fpdPass (n : ℕ) (massOf : Fin n → ℝ) (eigvals : Fin n → ℂ)
    (polVects : Fin n → Fin n → ℂ) : Fin n → Fin n → ℂ :=
  fun a b =>
    (∑ j, (((dyagDinQ n eigvals polVects).1 j ^ 2 : ℝ) : ℂ) *
        (dyagDinQ n eigvals polVects).2 a j *
        (dyagDinQ n eigvals polVects).2 b j) *
      ((Real.sqrt (massOf a * massOf b) : ℝ) : ℂ)

/-! ### GetRamanResponce (lines 906-961) -/

noncomputable def kToRy : ℝ := 6.336857346553283e-6

/-- Bose-Einstein occupation as computed at lines 956-959: zero unless
`T > 0`. -/
noncomputable def boseOccupation (T w : ℝ) : ℝ :=
  if 0 < T then 1 / (Real.exp (w / (kToRy * T)) - 1) else 0

/-- Lines 940-961.  `raman = none` models `self.raman_tensor = None` (never
parsed); the guard at line 940 then raises (spec kind InvalidState).
Otherwise the per-mode intensity is
`abs(I**2) * (1 + n) / w` with `I_mu = sum_{ijk} raman[i,j,k] *
polVects[k,mu] * m_k * polIn[i] * polOut[j]` (the einsum at line 953);
`w` and `polVects` are the output of `DyagDinQ(0)`. -/
noncomputable def getRamanResponce (n : ℕ)
    (raman : Option (Fin 3 → Fin 3 → Fin n → ℝ)) (w : Fin n → ℝ)
    (polVects : Fin n → Fin n → ℂ) (massOf : Fin n → ℝ)
    (polIn polOut : Fin 3 → ℝ) (T : ℝ) : Except SpecErr (Fin n → ℝ) :=
  match raman with
  | none => .error .invalidState
  | some R => .ok fun μ =>
      Complex.abs ((∑ i, ∑ j, ∑ k,
          ((R i j k * massOf k * polIn i * polOut j : ℝ) : ℂ) * polVects k μ) ^ 2) *
        (1 + boseOccupation T (w μ)) / w μ

/-! ### Concrete data refuting idempotence of ForcePositiveDefinite

A Gamma-point set with one atom (3 cartesian coordinates), unit masses and
the stored matrix `cexDyn` below — Hermitian, as the parser would produce
from a file holding these entries.  `cexEig1`/`cexP1` are the (unit-norm)
eigenpairs of the mass-weighted matrix that `np.linalg.eig` reports for the
first `ForcePositiveDefinite` pass; `cexEig2`/`cexP2` the ones it reports
for the second pass, whose input is defective (a nonzero complex-symmetric
matrix with all eigenvalues `0` on the top-left block), so the eigenvector
of the doubled zero eigenvalue is repeated — as `np.linalg.eig` does for
defective matrices. -/
noncomputable def invSqrt2 : ℂ := ((Real.sqrt 2)⁻¹ : ℝ)

noncomputable def cexDyn : Fin 3 → Fin 3 → ℂ :=
  ![![1, Complex.I, 0], ![-Complex.I, 1, 0], ![0, 0, 1]]

noncomputable def cexEig1 : Fin 3 → ℂ := ![2, 0, 1]

noncomputable def cexP1 : Fin 3 → Fin 3 → ℂ :=
  ![![invSqrt2, invSqrt2, 0],
    ![-invSqrt2 * Complex.I, invSqrt2 * Complex.I, 0],
    ![0, 0, 1]]

noncomputable def cexEig2 : Fin 3 → ℂ := ![0, 0, 1]

noncomputable def cexP2 : Fin 3 → Fin 3 → ℂ :=
  ![![invSqrt2 * Complex.I, invSqrt2 * Complex.I, 0],
    ![invSqrt2, invSqrt2, 0],
    ![0, 0, 1]]

/-- The value of the first `ForcePositiveDefinite` pass on `cexDyn` with the
oracle output `(cexEig1, cexP1)` (proved as `cexM1_eq`): note the sign flip
of entry `(1,1)` — the complex eigenvector columns are contracted without
conjugation at line 902, so the rebuilt matrix is complex symmetric instead
of Hermitian. -/
noncomputable def cexM1mat : Fin 3 → Fin 3 → ℂ :=
  ![![1, -Complex.I, 0], ![-Complex.I, -1, 0], ![0, 0, 1]]

/-! ## Theorems -/

/-- Claim C1 (code bug evidence): one save/reload cycle multiplies every
coordinate (and unit-cell row) by `A_TO_BOHR * BOHR_TO_ANGSTROM`, which
differs from 1 by about `5.2e-6`: at `alat = 1` a coordinate of `1.0`
Angstrom comes back larger than `1 + 1e-6`, violating the claimed `1e-6`
relative round-trip tolerance. -/
theorem C1_roundtrip_coordinate_drift :
    reloadedCoord 1 1 - 1 > 1 / 1000000 ∧
      aToBohrConst * bohrToAngstromConst - 1 > 1 / 1000000 := by
  have h8 : roundDec 8 (1 * aToBohrConst) = 188972599 / 100000000 := by
    rw [roundDec, show ((1 : ℚ) * aToBohrConst * 10 ^ 8 + 1 / 2) =
      1889725994 / 10 by norm_num [aToBohrConst]]
    rw [show ⌊(1889725994 : ℚ) / 10⌋ = 188972599 by
      rw [Int.floor_eq_iff]; norm_num]
    norm_num
  have h10 : roundDec 10 ((1 : ℚ) / 1) = 1 := by
    rw [roundDec, show ((1 : ℚ) / 1 * 10 ^ 10 + 1 / 2) =
      20000000001 / 2 by norm_num]
    rw [show ⌊(20000000001 : ℚ) / 2⌋ = 10000000000 by
      rw [Int.floor_eq_iff]; norm_num]
    norm_num
  constructor
  · rw [reloadedCoord, savedCoord, reloadedAlat, savedCelldm1, h8, h10]
    norm_num [bohrToAngstromConst]
  · norm_num [aToBohrConst, bohrToAngstromConst]

/-- Claim C4 (code bug evidence): for every non-empty structure
(`nAtoms = nA + 1` atoms) and every positive irreducible-q count
(`nqirr = nq + 1`) the Structure branch of the constructor raises
`TypeError` (line 93 iterates `for i in nqirr:` over an `int`), so it never
succeeds, never allocates the `nqirr` zero matrices, and never yields an
object at all. -/
theorem C4_init_always_typeerror (nA nq : ℕ) :
    phononsInitFromStructure ((nA : ℤ) + 1) ((nq : ℤ) + 1) =
      .error .typeError := by
  have h1 : ¬ ((nA : ℤ) + 1 ≤ 0) := by omega
  have h2 : ¬ ((nq : ℤ) + 1 ≤ 0) := by omega
  simp [phononsInitFromStructure, h1, h2]

/-- Helper: the per-file loop of `LoadFromQE` fails with `fileNotFound` as
soon as some file in the list is missing. -/
theorem loadLoop_error_of_missing (ex : ℕ → Bool) :
    ∀ l : List ℕ, (∃ i ∈ l, ex i = false) →
      loadLoop ex l = .error .fileNotFound := by
  intro l
  induction l with
  | nil => rintro ⟨i, hi, -⟩; exact absurd hi (List.not_mem_nil i)
  | cons j rest ih =>
    rintro ⟨i, hi, hex⟩
    by_cases hj : ex j = true
    · have hmem : i ∈ rest := by
        rcases List.mem_cons.mp hi with h | h
        · subst h; rw [hj] at hex; cases hex
        · exact h
      have := ih ⟨i, hmem, hex⟩
      simp [loadLoop, hj, this]
    · simp [loadLoop, hj]

/-- Claim C3: `LoadFromQE` fails with InvalidArgument whenever
`nqirr <= 0`; fails with InvalidArgument whenever full-name mode is combined
with `nqirr > 1`; and, for valid arguments, fails with FileNotFound whenever
one of the expected input files does not exist. -/
theorem C3_loader_error_checks (nqirr : ℤ) (fullName : Bool) (ex : ℕ → Bool) :
    (nqirr ≤ 0 →
      loadFromQEChecks nqirr fullName ex = .error .invalidArgument) ∧
    (fullName = true ∧ 1 < nqirr →
      loadFromQEChecks nqirr fullName ex = .error .invalidArgument) ∧
    (0 < nqirr → ¬ (fullName = true ∧ 1 < nqirr) →
      (∃ i : ℕ, (i : ℤ) < nqirr ∧ ex i = false) →
      loadFromQEChecks nqirr fullName ex = .error .fileNotFound) := by
  refine ⟨fun h => by simp [loadFromQEChecks, h], fun h => ?_, fun h1 h2 h3 => ?_⟩
  · have : ¬ nqirr ≤ 0 := by omega
    simp [loadFromQEChecks, this, h.1, h.2]
  · have hnot : ¬ nqirr ≤ 0 := by omega
    rcases h3 with ⟨i, hlt, hex⟩
    have hmem : i ∈ List.range nqirr.toNat := by
      rw [List.mem_range]; omega
    simp only [loadFromQEChecks, if_neg hnot, if_neg h2]
    exact loadLoop_error_of_missing ex _ ⟨i, hmem, hex⟩

/-- Witness for C3 at concrete inputs: `nqirr = -1`; full-name mode with
`nqirr = 2`; and `nqirr = 2` with the second expected file missing. -/
theorem C3_loader_error_checks_witness :
    loadFromQEChecks (-1) false (fun _ => true) = .error .invalidArgument ∧
    loadFromQEChecks 2 true (fun _ => true) = .error .invalidArgument ∧
    loadFromQEChecks 2 false (fun i => decide (i ≠ 1)) = .error .fileNotFound := by
  refine ⟨(C3_loader_error_checks (-1) false _).1 (by decide),
    (C3_loader_error_checks 2 true _).2.1 ⟨rfl, by decide⟩,
    (C3_loader_error_checks 2 false _).2.2 (by decide) (by decide)
      ⟨1, by decide, by decide⟩⟩

/-- Claim C8: `GetUpsilonMatrix` fails with InvalidArgument for negative
temperature and for a supercell set (more than one irreducible q point), and
`GetStrainMatrix` fails with InvalidArgument for negative temperature. -/
theorem C8_temperature_and_supercell_guards (T : ℚ) (nqirr : ℤ) :
    (T < 0 → getUpsilonMatrixChecks T nqirr = .error .invalidArgument) ∧
    (1 < nqirr → getUpsilonMatrixChecks T nqirr = .error .invalidArgument) ∧
    (T < 0 → getStrainMatrixChecks T = .error .invalidArgument) := by
  refine ⟨fun h => by simp [getUpsilonMatrixChecks, h], fun h => ?_,
    fun h => by simp [getStrainMatrixChecks, h]⟩
  have hne : nqirr ≠ 1 := by omega
  by_cases hT : T < 0 <;> simp [getUpsilonMatrixChecks, hT, hne]

/-- Witness for C8 at `T = -1`, `nqirr = 2`. -/
theorem C8_temperature_and_supercell_guards_witness :
    getUpsilonMatrixChecks (-1) 1 = .error .invalidArgument ∧
    getUpsilonMatrixChecks 0 2 = .error .invalidArgument ∧
    getStrainMatrixChecks (-1) = .error .invalidArgument := by
  exact ⟨(C8_temperature_and_supercell_guards (-1) 1).1 (by decide),
    (C8_temperature_and_supercell_guards 0 2).2.1 (by decide),
    (C8_temperature_and_supercell_guards (-1) 2).2.2 (by decide)⟩

/-- Claim C9: `GetRamanResponce` fails with InvalidState exactly when no
Raman tensor is present; with a Raman tensor it returns a per-mode intensity
array and in particular does not fail with InvalidState. -/
theorem C9_raman_invalid_state (n : ℕ) (R : Fin 3 → Fin 3 → Fin n → ℝ)
    (w : Fin n → ℝ) (polVects : Fin n → Fin n → ℂ) (massOf : Fin n → ℝ)
    (polIn polOut : Fin 3 → ℝ) (T : ℝ) :
    getRamanResponce n none w polVects massOf polIn polOut T =
      .error .invalidState ∧
    ∃ res, getRamanResponce n (some R) w polVects massOf polIn polOut T =
      .ok res := by
  exact ⟨rfl, _, rfl⟩

/-- Claim C10 (counterexample): `CheckCompatibility` can raise.  A `Phonons`
object built by the default constructor (as `Copy` does at line 397) has
`structure = None`; passing it as `other` makes line 429 evaluate
`other.structure.N_atoms`, raising `AttributeError` instead of returning a
boolean. -/
theorem C10_check_compatibility_counterexample :
    checkCompatibility ⟨some 2, 1⟩ (.phonons ⟨none, 1⟩) =
      .error .attributeError := rfl

/-- Claim C10 (amended): provided both operands carry an attached structure,
`CheckCompatibility` never raises and returns `false` iff the argument is
not a `Phonons` instance, or the atom counts differ, or the irreducible-q
counts differ, and `true` otherwise (atomic species are never compared). -/
theorem C10_check_compatibility_amended (nA q nB r : ℤ) :
    checkCompatibility ⟨some nA, q⟩ .nonPhonons = .ok false ∧
    checkCompatibility ⟨some nA, q⟩ (.phonons ⟨some nB, r⟩) =
      .ok (decide (nA = nB) && decide (q = r)) := by
  refine ⟨rfl, ?_⟩
  by_cases h1 : nA = nB <;> by_cases h2 : q = r <;>
    simp [checkCompatibility, h1, h2]

/-- Claim C2: `DyagDinQ` returns the frequencies obtained from the real
parts of the eigenvalues by the documented sign convention, sorted in
non-decreasing order, with the polarization-vector columns permuted by
exactly the same permutation as the frequencies. -/
theorem C2_dyag_frequency_convention_and_sorting (n : ℕ)
    (eigvals : Fin n → ℂ) (polVects : Fin n → Fin n → ℂ) :
    ∃ mask : Equiv.Perm (Fin n),
      (∀ j, (dyagDinQ n eigvals polVects).1 j =
        (if 0 < (eigvals (mask j)).re then Real.sqrt (eigvals (mask j)).re
         else if (eigvals (mask j)).re < 0 then
           -Real.sqrt (-(eigvals (mask j)).re)
         else 0)) ∧
      Monotone (dyagDinQ n eigvals polVects).1 ∧
      (∀ a j, (dyagDinQ n eigvals polVects).2 a j = polVects a (mask j)) := by
  refine ⟨Tuple.sort (fun j => freqOf (eigvals j).re), fun j => rfl, ?_,
    fun a j => rfl⟩
  have h := Tuple.monotone_sort (fun j => freqOf (eigvals j).re)
  simpa [dyagDinQ, Function.comp] using h

/-- Helper: quadratic form of a mass-dressed sum of rank-one terms. -/
theorem quad_rank_one_expand (n : ℕ) (s : Finset (Fin n)) (f : Fin n → ℝ)
    (P : Fin n → Fin n → ℝ) (c v : Fin n → ℝ) :
    ∑ a, ∑ b, v a * ((∑ μ ∈ s, f μ * P a μ * P b μ) * (c a * c b)) * v b
      = ∑ μ ∈ s, f μ * (∑ a, v a * c a * P a μ) ^ 2 := by
  calc
    ∑ a, ∑ b, v a * ((∑ μ ∈ s, f μ * P a μ * P b μ) * (c a * c b)) * v b
        = ∑ a, ∑ b, ∑ μ ∈ s,
            f μ * ((v a * c a * P a μ) * (v b * c b * P b μ)) := by
          refine Finset.sum_congr rfl fun a _ => Finset.sum_congr rfl fun b _ => ?_
          rw [Finset.sum_mul, Finset.mul_sum, Finset.sum_mul]
          exact Finset.sum_congr rfl fun μ _ => by ring
    _ = ∑ a, ∑ μ ∈ s, ∑ b,
            f μ * ((v a * c a * P a μ) * (v b * c b * P b μ)) :=
          Finset.sum_congr rfl fun a _ => Finset.sum_comm
    _ = ∑ μ ∈ s, ∑ a, ∑ b,
            f μ * ((v a * c a * P a μ) * (v b * c b * P b μ)) :=
          Finset.sum_comm
    _ = ∑ μ ∈ s, f μ * (∑ a, v a * c a * P a μ) ^ 2 := by
          refine Finset.sum_congr rfl fun μ _ => ?_
          rw [sq, Finset.sum_mul_sum, Finset.mul_sum]
          exact Finset.sum_congr rfl fun a _ => by rw [Finset.mul_sum]

/-- Claim C5: on a Gamma-only set whose diagonalization yields all-positive
frequencies, the `T = 0` Upsilon matrix is symmetric and positive
semidefinite. -/
theorem C5_upsilon_T0_symmetric_psd (n : ℕ) (eigvals : Fin n → ℂ)
    (polVects : Fin n → Fin n → ℂ) (massOf : Fin n → ℝ)
    (hw : ∀ j, 0 < (dyagDinQ n eigvals polVects).1 j) :
    (∀ a b, getUpsilonMatrixT0 n eigvals polVects massOf a b =
      getUpsilonMatrixT0 n eigvals polVects massOf b a) ∧
    (∀ v : Fin n → ℝ, 0 ≤ ∑ a, ∑ b,
      v a * getUpsilonMatrixT0 n eigvals polVects massOf a b * v b) := by
  constructor
  · intro a b
    simp only [getUpsilonMatrixT0]
    rw [Finset.sum_congr rfl fun μ _ =>
      (by ring :
        (2 * (dyagDinQ n eigvals polVects).1 μ) *
            ((dyagDinQ n eigvals polVects).2 a μ).re *
            ((dyagDinQ n eigvals polVects).2 b μ).re =
          (2 * (dyagDinQ n eigvals polVects).1 μ) *
            ((dyagDinQ n eigvals polVects).2 b μ).re *
            ((dyagDinQ n eigvals polVects).2 a μ).re)]
    ring
  · intro v
    simp only [getUpsilonMatrixT0]
    rw [quad_rank_one_expand n _ (fun μ => 2 * (dyagDinQ n eigvals polVects).1 μ)
      (fun a μ => ((dyagDinQ n eigvals polVects).2 a μ).re)
      (fun a => Real.sqrt (massOf a)) v]
    refine Finset.sum_nonneg fun μ _ => mul_nonneg ?_ (sq_nonneg _)
    have := hw μ
    linarith

/-- Witness for C5: a concrete 3-mode oracle output with unit eigenvalues
(all frequencies equal to 1). -/
theorem C5_upsilon_T0_symmetric_psd_witness :
    (∀ j, 0 < (dyagDinQ 3 (fun _ => 1) (fun _ _ => 1)).1 j) ∧
    ((∀ a b, getUpsilonMatrixT0 3 (fun _ => 1) (fun _ _ => 1) (fun _ => 1) a b =
        getUpsilonMatrixT0 3 (fun _ => 1) (fun _ _ => 1) (fun _ => 1) b a) ∧
      (∀ v : Fin 3 → ℝ, 0 ≤ ∑ a, ∑ b,
        v a * getUpsilonMatrixT0 3 (fun _ => 1) (fun _ _ => 1) (fun _ => 1) a b * v b)) := by
  have hyp : ∀ j, 0 < (dyagDinQ 3 (fun _ => 1) (fun _ _ => 1)).1 j := by
    intro j
    simp [dyagDinQ, freqOf, Real.sqrt_one]
  exact ⟨hyp, C5_upsilon_T0_symmetric_psd 3 _ _ _ hyp⟩

/-- Helper: the quadratic form at the all-zero displacement is zero. -/
theorem quadFormU_zero (n : ℕ) (ups : Fin n → Fin n → ℝ) :
    quadFormU n ups (fun _ => 0) = 0 := by
  simp [quadFormU]

/-- Helper (for the C6 counterexample, not itself a claim): the degenerate
5 x 5 matrix with a single unit entry at position (4,4) is positive
semidefinite, so it is a legitimate instance of the claim, and the basis
vectors are eigenvectors with eigenvalues `0, 0, 0, 0, 1` — so
`np.linalg.eigvals` returns the multiset `{0, 0, 0, 0, 1}` for it. -/
theorem degenerate_upsilon_psd :
    (∀ v : Fin 5 → ℝ, 0 ≤ quadFormU 5
      (fun a b => if a = 4 ∧ b = 4 then 1 else 0) v) ∧
    (∀ j k : Fin 5, ∑ b, (fun a b : Fin 5 =>
        if a = 4 ∧ b = 4 then (1 : ℝ) else 0) k b * (if b = j then 1 else 0) =
      (if (j : ℕ) = 4 then 1 else 0) * (if k = j then 1 else 0)) := by
  constructor
  · intro v
    have h : quadFormU 5 (fun a b => if a = 4 ∧ b = 4 then 1 else 0) v =
        v 4 * v 4 := by
      simp [quadFormU, Fin.sum_univ_five]
    rw [h]
    exact mul_self_nonneg _
  · intro j k
    fin_cases j <;> fin_cases k <;> simp [Fin.sum_univ_five]

/-- Claim C6 (counterexample): with the positive-semidefinite Upsilon matrix
`diag(0,0,0,0,1)` (eigenvalues `[0,0,0,0,1]`), the displacement `u1 = 0` has
a strictly smaller quadratic form than `u2 = e_4`, yet the (normalized, the
default) probabilities are equal: the normalization determinant — the
product of the `3N-3` largest-magnitude eigenvalues over `2*pi` — vanishes,
so both probabilities are `0` and the claimed strict inequality fails. -/
theorem C6_probability_counterexample :
    quadFormU 5 (fun a b => if a = 4 ∧ b = 4 then 1 else 0) (fun _ => 0) <
      quadFormU 5 (fun a b => if a = 4 ∧ b = 4 then 1 else 0)
        (fun b => if b = 4 then 1 else 0) ∧
    ¬ (getProbability 5 (fun a b => if a = 4 ∧ b = 4 then 1 else 0)
          [0, 0, 0, 0, 1] (fun _ => 0) true >
        getProbability 5 (fun a b => if a = 4 ∧ b = 4 then 1 else 0)
          [0, 0, 0, 0, 1] (fun b => if b = 4 then 1 else 0) true) := by
  have hnorm : probNormConst [0, 0, 0, 0, 1] = 0 := by
    simp [probNormConst, sortedAbsVals, List.insertionSort, List.orderedInsert]
  constructor
  · rw [quadFormU_zero]
    have h : quadFormU 5 (fun a b => if a = 4 ∧ b = 4 then 1 else 0)
        (fun b => if b = 4 then 1 else 0) = 1 := by
      simp [quadFormU, Fin.sum_univ_five]
    rw [h]
    exact one_pos
  · simp [getProbability, hnorm]

/-- Claim C6 (amended): for a fixed positive-semidefinite Upsilon matrix,
the all-zero displacement attains the maximum probability (normalized or
not); when `quadFormU u1 < quadFormU u2` the unnormalized probability is
strictly larger at `u1`, and the normalized probability is at least as
large, strictly when the normalization constant `sqrt(det)` is positive. -/
theorem C6_probability_monotone_amended (n : ℕ) (ups : Fin n → Fin n → ℝ)
    (vals : List ℝ) (u u1 u2 : Fin n → ℝ)
    (hpsd : ∀ v : Fin n → ℝ, 0 ≤ quadFormU n ups v) :
    (getProbability n ups vals (fun _ => 0) true ≥
      getProbability n ups vals u true) ∧
    (getProbability n ups vals (fun _ => 0) false ≥
      getProbability n ups vals u false) ∧
    (quadFormU n ups u1 < quadFormU n ups u2 →
      getProbability n ups vals u1 false > getProbability n ups vals u2 false) ∧
    (quadFormU n ups u1 < quadFormU n ups u2 →
      getProbability n ups vals u1 true ≥ getProbability n ups vals u2 true) ∧
    (quadFormU n ups u1 < quadFormU n ups u2 → 0 < probNormConst vals →
      getProbability n ups vals u1 true > getProbability n ups vals u2 true) := by
  have hexp : ∀ w1 w2 : Fin n → ℝ, quadFormU n ups w1 ≤ quadFormU n ups w2 →
      Real.exp (-(quadFormU n ups w2)) ≤ Real.exp (-(quadFormU n ups w1)) :=
    fun w1 w2 h => Real.exp_le_exp.mpr (neg_le_neg h)
  have hT : ∀ w : Fin n → ℝ, getProbability n ups vals w true =
      probNormConst vals * Real.exp (-(quadFormU n ups w)) := fun w => rfl
  have hF : ∀ w : Fin n → ℝ, getProbability n ups vals w false =
      Real.exp (-(quadFormU n ups w)) := fun w => rfl
  refine ⟨?_, ?_, fun h => ?_, fun h => ?_, fun h hc => ?_⟩
  · rw [hT, hT]
    refine mul_le_mul_of_nonneg_left ?_ (Real.sqrt_nonneg _)
    exact hexp _ _ (by rw [quadFormU_zero]; exact hpsd u)
  · rw [hF, hF]
    exact hexp _ _ (by rw [quadFormU_zero]; exact hpsd u)
  · rw [hF, hF]
    exact Real.exp_lt_exp.mpr (neg_lt_neg h)
  · rw [hT, hT]
    exact mul_le_mul_of_nonneg_left (hexp _ _ h.le) (Real.sqrt_nonneg _)
  · rw [hT, hT]
    exact mul_lt_mul_of_pos_left (Real.exp_lt_exp.mpr (neg_lt_neg h)) hc

/-- Witness for the amended C6 on a one-dimensional concrete instance with
Upsilon `[[1]]`, eigenvalue list `[2*pi]`, `u1 = 0`, `u2 = 1`. -/
theorem C6_probability_monotone_amended_witness :
    (∀ v : Fin 1 → ℝ, 0 ≤ quadFormU 1 (fun _ _ => 1) v) ∧
    quadFormU 1 (fun _ _ => 1) (fun _ => 0) <
      quadFormU 1 (fun _ _ => 1) (fun _ => 1) ∧
    0 < probNormConst [2 * Real.pi] ∧
    ((getProbability 1 (fun _ _ => 1) [2 * Real.pi] (fun _ => 0) true ≥
        getProbability 1 (fun _ _ => 1) [2 * Real.pi] (fun _ => 1) true) ∧
      (getProbability 1 (fun _ _ => 1) [2 * Real.pi] (fun _ => 0) false ≥
        getProbability 1 (fun _ _ => 1) [2 * Real.pi] (fun _ => 1) false) ∧
      (quadFormU 1 (fun _ _ => 1) (fun _ => 0) <
          quadFormU 1 (fun _ _ => 1) (fun _ => 1) →
        getProbability 1 (fun _ _ => 1) [2 * Real.pi] (fun _ => 0) false >
          getProbability 1 (fun _ _ => 1) [2 * Real.pi] (fun _ => 1) false) ∧
      (quadFormU 1 (fun _ _ => 1) (fun _ => 0) <
          quadFormU 1 (fun _ _ => 1) (fun _ => 1) →
        getProbability 1 (fun _ _ => 1) [2 * Real.pi] (fun _ => 0) true ≥
          getProbability 1 (fun _ _ => 1) [2 * Real.pi] (fun _ => 1) true) ∧
      (quadFormU 1 (fun _ _ => 1) (fun _ => 0) <
          quadFormU 1 (fun _ _ => 1) (fun _ => 1) →
        0 < probNormConst [2 * Real.pi] →
        getProbability 1 (fun _ _ => 1) [2 * Real.pi] (fun _ => 0) true >
          getProbability 1 (fun _ _ => 1) [2 * Real.pi] (fun _ => 1) true)) := by
  have hpsd : ∀ v : Fin 1 → ℝ, 0 ≤ quadFormU 1 (fun _ _ => 1) v := by
    intro v
    have h : quadFormU 1 (fun _ _ => 1) v = v 0 * v 0 := by
      simp [quadFormU, Fin.sum_univ_one]
    rw [h]
    exact mul_self_nonneg _
  have hq : quadFormU 1 (fun _ _ => 1) (fun _ => 0) <
      quadFormU 1 (fun _ _ => 1) (fun _ => 1) := by
    rw [quadFormU_zero]
    have h : quadFormU 1 (fun _ _ => (1 : ℝ)) (fun _ => 1) = 1 := by
      simp [quadFormU, Fin.sum_univ_one]
    rw [h]
    exact one_pos
  have hc : 0 < probNormConst [2 * Real.pi] := by
    have h2pi : (2 : ℝ) * Real.pi ≠ 0 := by positivity
    simp [probNormConst, sortedAbsVals, List.insertionSort, List.orderedInsert,
      div_self h2pi]
  exact ⟨hpsd, hq, hc,
    C6_probability_monotone_amended 1 (fun _ _ => 1) [2 * Real.pi]
      (fun _ => 1) (fun _ => 0) (fun _ => 1) hpsd⟩

/-- Helper: the square of a frequency produced by the sign convention is the
absolute value of the eigenvalue it came from. -/
theorem freqOf_sq (x : ℝ) : freqOf x ^ 2 = |x| := by
  unfold freqOf
  split_ifs with h1 h2
  · rw [Real.sq_sqrt h1.le, abs_of_pos h1]
  · rw [neg_sq, Real.sq_sqrt (neg_nonneg.mpr h2.le), abs_of_neg h2]
  · have hx : x = 0 := le_antisymm (not_lt.mp h1) (not_lt.mp h2)
    simp [hx]

/-- Helper: the mode sum in `ForcePositiveDefinite` does not depend on the
sorting permutation applied by `DyagDinQ`. -/
theorem fpdPass_eq_unsorted (n : ℕ) (massOf : Fin n → ℝ) (eigvals : Fin n → ℂ)
    (polVects : Fin n → Fin n → ℂ) (a b : Fin n) :
    fpdPass n massOf eigvals polVects a b =
      (∑ j, ((freqOf (eigvals j).re ^ 2 : ℝ) : ℂ) * polVects a j * polVects b j) *
        ((Real.sqrt (massOf a * massOf b) : ℝ) : ℂ) := by
  have h := Equiv.sum_comp (Tuple.sort fun i => freqOf (eigvals i).re)
    (fun j => ((freqOf (eigvals j).re ^ 2 : ℝ) : ℂ) * polVects a j * polVects b j)
  calc fpdPass n massOf eigvals polVects a b
      = (∑ j, ((freqOf (eigvals ((Tuple.sort fun i => freqOf (eigvals i).re) j)).re ^ 2 : ℝ) : ℂ) *
            polVects a ((Tuple.sort fun i => freqOf (eigvals i).re) j) *
            polVects b ((Tuple.sort fun i => freqOf (eigvals i).re) j)) *
          ((Real.sqrt (massOf a * massOf b) : ℝ) : ℂ) := rfl
    _ = (∑ j, ((freqOf (eigvals j).re ^ 2 : ℝ) : ℂ) * polVects a j * polVects b j) *
          ((Real.sqrt (massOf a * massOf b) : ℝ) : ℂ) := by rw [h]

/-- Helper: contraction of a sum of rank-one terms against one vector on
both sides. -/
theorem contract_rank_one (n : ℕ) (c : Fin n → ℂ) (Q P : Fin n → Fin n → ℂ)
    (k : Fin n) :
    ∑ a, ∑ b, Q a k * (∑ m, c m * P a m * P b m) * Q b k
      = ∑ m, c m * ((∑ a, Q a k * P a m) * (∑ b, Q b k * P b m)) := by
  calc
    ∑ a, ∑ b, Q a k * (∑ m, c m * P a m * P b m) * Q b k
        = ∑ a, ∑ b, ∑ m, c m * ((Q a k * P a m) * (Q b k * P b m)) := by
          refine Finset.sum_congr rfl fun a _ => Finset.sum_congr rfl fun b _ => ?_
          rw [Finset.mul_sum, Finset.sum_mul]
          exact Finset.sum_congr rfl fun m _ => by ring
    _ = ∑ a, ∑ m, ∑ b, c m * ((Q a k * P a m) * (Q b k * P b m)) :=
          Finset.sum_congr rfl fun a _ => Finset.sum_comm
    _ = ∑ m, ∑ a, ∑ b, c m * ((Q a k * P a m) * (Q b k * P b m)) :=
          Finset.sum_comm
    _ = ∑ m, c m * ((∑ a, Q a k * P a m) * (∑ b, Q b k * P b m)) := by
          refine Finset.sum_congr rfl fun m _ => ?_
          rw [Finset.sum_mul_sum, Finset.mul_sum]
          exact Finset.sum_congr rfl fun a _ => by rw [Finset.mul_sum]

/-- Claim C7 (amended): on matrices whose diagonalizations are real — as at
the Gamma point, where the stored matrix is real symmetric — a second
application of `ForcePositiveDefinite` reproduces the first one's output
exactly: the hypotheses say the masses are positive, the first
eigendecomposition is real-valued, and the second call's `np.linalg.eig`
output `(eigvals2, P2)` is a genuine real orthonormal spectral decomposition
of the mass-weighted first-pass matrix; under them the rebuilt matrix is
unchanged, because every second-pass eigenvalue is necessarily nonnegative. -/
theorem C7_force_positive_definite_idempotent_amended (n : ℕ)
    (massOf : Fin n → ℝ) (eigvals1 : Fin n → ℂ) (P1 : Fin n → Fin n → ℂ)
    (eigvals2 : Fin n → ℂ) (P2 : Fin n → Fin n → ℂ)
    (hmass : ∀ a, 0 < massOf a)
    (hreal1 : ∀ a j, (P1 a j).im = 0)
    (hreal2 : ∀ a j, (P2 a j).im = 0)
    (horth : ∀ j k, (∑ a, P2 a j * P2 a k) = if j = k then 1 else 0)
    (hdecomp : ∀ a b,
      massWeighted n massOf (fpdPass n massOf eigvals1 P1) a b
        = ∑ j, eigvals2 j * P2 a j * P2 b j) :
    fpdPass n massOf eigvals2 P2 = fpdPass n massOf eigvals1 P1 := by
  have hsqrt : ∀ a b : Fin n, Real.sqrt (massOf a * massOf b) ≠ 0 := fun a b =>
    ne_of_gt (Real.sqrt_pos.mpr (mul_pos (hmass a) (hmass b)))
  -- the mass weighting cancels the mass dressing of the first pass
  have hA : ∀ a b, massWeighted n massOf (fpdPass n massOf eigvals1 P1) a b
      = ∑ m, ((freqOf (eigvals1 m).re ^ 2 : ℝ) : ℂ) * P1 a m * P1 b m := by
    intro a b
    have hs : ((Real.sqrt (massOf a * massOf b) : ℝ) : ℂ) *
        (((1 : ℝ) / Real.sqrt (massOf a * massOf b) : ℝ) : ℂ) = 1 := by
      rw [← Complex.ofReal_mul, mul_one_div_cancel (hsqrt a b), Complex.ofReal_one]
    calc massWeighted n massOf (fpdPass n massOf eigvals1 P1) a b
        = (((1 : ℝ) / Real.sqrt (massOf a * massOf b) : ℝ) : ℂ) *
            ((∑ m, ((freqOf (eigvals1 m).re ^ 2 : ℝ) : ℂ) * P1 a m * P1 b m) *
              ((Real.sqrt (massOf a * massOf b) : ℝ) : ℂ)) := by
          rw [massWeighted, fpdPass_eq_unsorted]
      _ = (∑ m, ((freqOf (eigvals1 m).re ^ 2 : ℝ) : ℂ) * P1 a m * P1 b m) *
            (((Real.sqrt (massOf a * massOf b) : ℝ) : ℂ) *
              (((1 : ℝ) / Real.sqrt (massOf a * massOf b) : ℝ) : ℂ)) := by ring
      _ = ∑ m, ((freqOf (eigvals1 m).re ^ 2 : ℝ) : ℂ) * P1 a m * P1 b m := by
          rw [hs, mul_one]
  -- every second-pass eigenvalue equals a mode contraction of the first pass
  have hlam : ∀ k, eigvals2 k =
      ∑ m, ((freqOf (eigvals1 m).re ^ 2 : ℝ) : ℂ) *
        ((∑ a, P2 a k * P1 a m) * (∑ b, P2 b k * P1 b m)) := by
    intro k
    have h1 : ∑ a, ∑ b, P2 a k *
        (massWeighted n massOf (fpdPass n massOf eigvals1 P1) a b) * P2 b k
          = eigvals2 k := by
      calc ∑ a, ∑ b, P2 a k *
            (massWeighted n massOf (fpdPass n massOf eigvals1 P1) a b) * P2 b k
          = ∑ a, ∑ b, P2 a k * (∑ j, eigvals2 j * P2 a j * P2 b j) * P2 b k :=
            Finset.sum_congr rfl fun a _ => Finset.sum_congr rfl fun b _ => by
              rw [hdecomp a b]
        _ = ∑ j, eigvals2 j * ((∑ a, P2 a k * P2 a j) * (∑ b, P2 b k * P2 b j)) :=
            contract_rank_one n eigvals2 P2 P2 k
        _ = ∑ j, if k = j then eigvals2 j else 0 := by
            refine Finset.sum_congr rfl fun j _ => ?_
            rw [horth k j]
            by_cases hkj : k = j
            · simp [hkj]
            · simp [hkj]
        _ = eigvals2 k := by simp
    have h2 : ∑ a, ∑ b, P2 a k *
        (massWeighted n massOf (fpdPass n massOf eigvals1 P1) a b) * P2 b k
          = ∑ m, ((freqOf (eigvals1 m).re ^ 2 : ℝ) : ℂ) *
            ((∑ a, P2 a k * P1 a m) * (∑ b, P2 b k * P1 b m)) := by
      calc ∑ a, ∑ b, P2 a k *
            (massWeighted n massOf (fpdPass n massOf eigvals1 P1) a b) * P2 b k
          = ∑ a, ∑ b, P2 a k *
              (∑ m, ((freqOf (eigvals1 m).re ^ 2 : ℝ) : ℂ) * P1 a m * P1 b m) *
              P2 b k :=
            Finset.sum_congr rfl fun a _ => Finset.sum_congr rfl fun b _ => by
              rw [hA a b]
        _ = ∑ m, ((freqOf (eigvals1 m).re ^ 2 : ℝ) : ℂ) *
              ((∑ a, P2 a k * P1 a m) * (∑ b, P2 b k * P1 b m)) :=
            contract_rank_one n _ P2 P1 k
    exact h1.symm.trans h2
  -- the cross contraction is real, so each second-pass eigenvalue is a
  -- nonnegative real number
  have hs_real : ∀ k m : Fin n, (∑ a, P2 a k * P1 a m)
      = ((∑ a, (P2 a k).re * (P1 a m).re : ℝ) : ℂ) := by
    intro k m
    rw [Complex.ofReal_sum]
    refine Finset.sum_congr rfl fun a _ => ?_
    rw [Complex.ofReal_mul]
    congr 1
    · exact Complex.ext rfl ((hreal2 a k).trans (Complex.ofReal_im _).symm)
    · exact Complex.ext rfl ((hreal1 a m).trans (Complex.ofReal_im _).symm)
  have hlam2 : ∀ k, eigvals2 k =
      ((∑ m, freqOf (eigvals1 m).re ^ 2 *
        (∑ a, (P2 a k).re * (P1 a m).re) ^ 2 : ℝ) : ℂ) := by
    intro k
    rw [hlam k, Complex.ofReal_sum]
    refine Finset.sum_congr rfl fun m _ => ?_
    rw [hs_real k m]
    push_cast
    ring
  have hre_nonneg : ∀ k, 0 ≤ (∑ m, freqOf (eigvals1 m).re ^ 2 *
      (∑ a, (P2 a k).re * (P1 a m).re) ^ 2 : ℝ) :=
    fun k => Finset.sum_nonneg fun m _ => mul_nonneg (sq_nonneg _) (sq_nonneg _)
  -- conclusion: the second rebuild reproduces the first-pass matrix
  have hterm : ∀ k, ((freqOf (eigvals2 k).re ^ 2 : ℝ) : ℂ) = eigvals2 k := by
    intro k
    have h1 : (eigvals2 k).re = (∑ m, freqOf (eigvals1 m).re ^ 2 *
        (∑ a, (P2 a k).re * (P1 a m).re) ^ 2 : ℝ) := by
      rw [hlam2 k, Complex.ofReal_re]
    rw [h1, freqOf_sq, abs_of_nonneg (hre_nonneg k)]
    exact (hlam2 k).symm
  funext a b
  calc fpdPass n massOf eigvals2 P2 a b
      = (∑ k, ((freqOf (eigvals2 k).re ^ 2 : ℝ) : ℂ) * P2 a k * P2 b k) *
          ((Real.sqrt (massOf a * massOf b) : ℝ) : ℂ) :=
        fpdPass_eq_unsorted n massOf eigvals2 P2 a b
    _ = (∑ k, eigvals2 k * P2 a k * P2 b k) *
          ((Real.sqrt (massOf a * massOf b) : ℝ) : ℂ) := by
        congr 1
        exact Finset.sum_congr rfl fun k _ => by rw [hterm k]
    _ = massWeighted n massOf (fpdPass n massOf eigvals1 P1) a b *
          ((Real.sqrt (massOf a * massOf b) : ℝ) : ℂ) := by
        rw [hdecomp a b]
    _ = (∑ m, ((freqOf (eigvals1 m).re ^ 2 : ℝ) : ℂ) * P1 a m * P1 b m) *
          ((Real.sqrt (massOf a * massOf b) : ℝ) : ℂ) := by
        rw [hA a b]
    _ = fpdPass n massOf eigvals1 P1 a b :=
        (fpdPass_eq_unsorted n massOf eigvals1 P1 a b).symm

/-- Helper: the square of the normalization factor of the counterexample
eigenvectors. -/
theorem invSqrt2_sq : invSqrt2 ^ 2 = 1 / 2 := by
  have h : (Real.sqrt 2)⁻¹ * (Real.sqrt 2)⁻¹ = (1 : ℝ) / 2 := by
    rw [← mul_inv, Real.mul_self_sqrt (by norm_num)]
    norm_num
  rw [invSqrt2, sq, ← Complex.ofReal_mul, h]
  push_cast
  ring

/-- Helper: squared norm of the normalization factor. -/
theorem invSqrt2_normSq : Complex.normSq invSqrt2 = 1 / 2 := by
  rw [invSqrt2, Complex.normSq_ofReal, ← mul_inv,
    Real.mul_self_sqrt (by norm_num)]
  norm_num

/-- Helper: value of the first `ForcePositiveDefinite` pass on the
counterexample data. -/
theorem cexM1_eq : ∀ a b : Fin 3,
    fpdPass 3 (fun _ => 1) cexEig1 cexP1 a b = cexM1mat a b := by
  intro a b
  rw [fpdPass_eq_unsorted]
  have h2 : |((2:ℂ)).re| = 2 := by norm_num
  have h0 : |((0:ℂ)).re| = 0 := by norm_num
  have h1 : |((1:ℂ)).re| = 1 := by norm_num
  fin_cases a <;> fin_cases b
  all_goals simp [cexP1, cexEig1, cexM1mat, Fin.sum_univ_three, freqOf_sq,
    h2, h0, h1, Real.sqrt_one]
  all_goals try ring_nf
  all_goals try simp [Complex.I_sq, invSqrt2_sq]
  all_goals try ring

/-- Helper: the oracle data of the counterexample is honest.  The columns of
`cexP1` are unit-norm eigenvectors of the mass-weighted stored matrix with
the eigenvalues `cexEig1`, and the columns of `cexP2` are unit-norm
eigenvectors of the mass-weighted output of the first pass with the
eigenvalues `cexEig2` — exactly what the two `np.linalg.eig` calls of two
consecutive `ForcePositiveDefinite` applications return. -/
theorem C7_counterexample_oracle_valid :
    (∀ j a : Fin 3, ∑ b, massWeighted 3 (fun _ => 1) cexDyn a b * cexP1 b j
      = cexEig1 j * cexP1 a j) ∧
    (∀ j : Fin 3, ∑ a, Complex.normSq (cexP1 a j) = 1) ∧
    (∀ j a : Fin 3, ∑ b, massWeighted 3 (fun _ => 1)
        (fpdPass 3 (fun _ => 1) cexEig1 cexP1) a b * cexP2 b j
      = cexEig2 j * cexP2 a j) ∧
    (∀ j : Fin 3, ∑ a, Complex.normSq (cexP2 a j) = 1) := by
  have hw : ∀ M : Fin 3 → Fin 3 → ℂ, ∀ a b : Fin 3,
      massWeighted 3 (fun _ => 1) M a b = M a b := by
    intro M a b
    rw [massWeighted]
    norm_num [Real.sqrt_one]
  refine ⟨fun j a => ?_, fun j => ?_, fun j a => ?_, fun j => ?_⟩
  · simp only [hw]
    fin_cases j <;> fin_cases a
    all_goals simp [cexDyn, cexP1, cexEig1, Fin.sum_univ_three]
    all_goals try ring_nf
    all_goals try simp [Complex.I_sq, invSqrt2_sq]
    all_goals try ring
  · fin_cases j
    all_goals simp [cexP1, Fin.sum_univ_three, Complex.normSq_mul,
      invSqrt2_normSq]
    all_goals norm_num [Complex.normSq_I]
  · simp only [hw, cexM1_eq]
    fin_cases j <;> fin_cases a
    all_goals simp [cexM1mat, cexP2, cexEig2, Fin.sum_univ_three]
    all_goals try ring_nf
    all_goals try simp [Complex.I_sq, invSqrt2_sq]
  · fin_cases j
    all_goals simp [cexP2, Fin.sum_univ_three, Complex.normSq_mul,
      invSqrt2_normSq]
    all_goals norm_num [Complex.normSq_I]

/-- Claim C7 (counterexample): two consecutive `ForcePositiveDefinite`
passes on the initialized Gamma set holding the Hermitian matrix `cexDyn`
(one atom, unit masses) do not agree: with the honest eigensolver outputs of
`C7_counterexample_oracle_valid`, the first pass yields `cexM1mat` (entry
`(0,0)` equal to `1`), while the second pass rebuilds `diag(0,0,1)` (entry
`(0,0)` equal to `0`), because the first pass output is complex symmetric
but not Hermitian and its top-left block is defective with all eigenvalues
zero.  So the second application changes `dynamical_matrices`. -/
theorem C7_force_positive_definite_counterexample :
    fpdPass 3 (fun _ => 1) cexEig2 cexP2 0 0 ≠
      fpdPass 3 (fun _ => 1) cexEig1 cexP1 0 0 := by
  have h1 : fpdPass 3 (fun _ => 1) cexEig1 cexP1 0 0 = 1 := by
    rw [cexM1_eq]
    simp [cexM1mat]
  have h2 : fpdPass 3 (fun _ => 1) cexEig2 cexP2 0 0 = 0 := by
    rw [fpdPass_eq_unsorted]
    simp [cexP2, cexEig2, Fin.sum_univ_three, freqOf_sq]
  rw [h1, h2]
  exact zero_ne_one

/-- Witness for the amended C7 on a one-mode set: the first pass flips the
eigenvalue `-4` to `4`, and a second honest pass leaves the result
unchanged. -/
theorem C7_force_positive_definite_idempotent_amended_witness :
    (∀ j k : Fin 1, (∑ a, (fun _ _ : Fin 1 => (1:ℂ)) a j *
        (fun _ _ : Fin 1 => (1:ℂ)) a k) = if j = k then 1 else 0) ∧
    (∀ a b : Fin 1, massWeighted 1 (fun _ => 1)
        (fpdPass 1 (fun _ => 1) (fun _ => ((-4 : ℝ) : ℂ)) (fun _ _ => 1)) a b
      = ∑ j, (fun _ : Fin 1 => ((4 : ℝ) : ℂ)) j *
          (fun _ _ : Fin 1 => (1:ℂ)) a j * (fun _ _ : Fin 1 => (1:ℂ)) b j) ∧
    fpdPass 1 (fun _ => 1) (fun _ => ((4 : ℝ) : ℂ)) (fun _ _ => 1) =
      fpdPass 1 (fun _ => 1) (fun _ => ((-4 : ℝ) : ℂ)) (fun _ _ => 1) := by
  have horth : ∀ j k : Fin 1, (∑ a, (fun _ _ : Fin 1 => (1:ℂ)) a j *
      (fun _ _ : Fin 1 => (1:ℂ)) a k) = if j = k then 1 else 0 := by
    intro j k
    simp [Subsingleton.elim j k]
  have hdecomp : ∀ a b : Fin 1, massWeighted 1 (fun _ => 1)
      (fpdPass 1 (fun _ => 1) (fun _ => ((-4 : ℝ) : ℂ)) (fun _ _ => 1)) a b
      = ∑ j, (fun _ : Fin 1 => ((4 : ℝ) : ℂ)) j *
          (fun _ _ : Fin 1 => (1:ℂ)) a j * (fun _ _ : Fin 1 => (1:ℂ)) b j := by
    intro a b
    rw [massWeighted, fpdPass_eq_unsorted]
    simp [Fin.sum_univ_one, freqOf_sq, Real.sqrt_one]
  exact ⟨horth, hdecomp,
    C7_force_positive_definite_idempotent_amended 1 (fun _ => 1)
      (fun _ => ((-4 : ℝ) : ℂ)) (fun _ _ => 1) (fun _ => ((4 : ℝ) : ℂ))
      (fun _ _ => 1) (fun _ => one_pos) (fun _ _ => rfl) (fun _ _ => rfl)
      horth hdecomp⟩
